import Mathlib

/-!
# Market Sentinel — verification of the decision engine and durable state model

A shallow embedding of the core of `market_sentinel/main.py` and
`market_sentinel/positions.py`: the per-symbol tick decision (buy /
target-sell / stop-sell / hold), baseline reset, SMA computation, SMA window
recovery, the position ledger, trade-log validation and purchase-date
recovery.  Prices, cash and ATR values are modelled as rationals, calendar
dates as integers, timestamps as rational seconds.
-/

namespace MarketSentinel

/-- The `SMA_PERIOD` configuration value (default 20). -/
def SMA_PERIOD : ℕ := 20

/-- Function `compute_sma(prices)` (main.py lines 94–98): `None` ("not ready") when
fewer than `period` samples exist, otherwise the arithmetic mean of the
samples handed to it. -/
def compute_sma (period : ℕ) (prices : List ℚ) : Option ℚ :=
  if prices.length < period then none
  else some (prices.sum / prices.length)

/-- A stored baseline (`baselines[sym]`): reference price and timestamp
(seconds). -/
structure Baseline where
  price : ℚ
  ts : ℚ
deriving DecidableEq, Repr

/-- The `reset_req` computation of the main loop (main.py lines 604–611).
`RESET_HOURS` is in hours, `now`/`bl.ts` in seconds, hence the factor 3600
standing for `timedelta(hours=RESET_HOURS)`. -/
def reset_req (RESET_HOURS BASELINE_DRIFT VOLATILITY_FILTER : ℚ)
    (bl : Option Baseline) (price atr now : ℚ) : Bool :=
  match bl with
  | none => true
  | some b =>
    if now - b.ts > RESET_HOURS * 3600 then true
    else if |price - b.price| / b.price > BASELINE_DRIFT then
      decide (atr > 0) && decide (atr / price > VOLATILITY_FILTER)
    else false

/-- Round-half-to-even to an integer, the rounding used by Python's builtin
`round`. -/
def roundHalfEven (x : ℚ) : ℤ :=
  if x - ⌊x⌋ < 1/2 then ⌊x⌋
  else if x - ⌊x⌋ > 1/2 then ⌊x⌋ + 1
  else if ⌊x⌋ % 2 = 0 then ⌊x⌋ else ⌊x⌋ + 1

/-- Python `round(x, 6)`: round to six decimal places, ties to even. -/
def round6 (x : ℚ) : ℚ := (roundHalfEven (x * 1000000) : ℚ) / 1000000

/-- The per-bot trigger profile (`bt`, `st`, `sm` of the symbol loop) together
with the sizing fraction `RISK_PCT`. -/
structure BotParams where
  BUY_TRIGGER : ℚ
  SELL_TRIGGER : ℚ
  STOP_MULTIPLIER : ℚ
  RISK_PCT : ℚ
deriving Repr

/-- The decision the main loop takes for one symbol on one tick. -/
inductive Decision where
  | buy (qty : ℚ)
  | sellTarget
  | sellStop
  | hold
deriving DecidableEq, Repr

/-- The trading decision of the main loop for one symbol on one tick
(main.py lines 618–666), taken after the SMA is ready.  `qty`/`avg_entry`
come from the broker position, `baseline_price` is the (possibly just reset)
stored baseline, `purchase_date` is `purchase_dates.get(sym)` and `today` is
`now.date()`. -/
def tickDecision (p : BotParams) (qty avg_entry baseline_price cash price atr sma : ℚ)
    (is_lunch : Bool) (purchase_date : Option ℤ) (today : ℤ) : Decision :=
  let base_price := if qty > 0 then avg_entry else baseline_price
  let trend_ok := price > sma
  let buy_price := base_price * p.BUY_TRIGGER
  let sell_price := base_price * p.SELL_TRIGGER
  let stop_price := max (base_price - atr * p.STOP_MULTIPLIER) 0
  if qty = 0 ∧ price ≤ buy_price ∧ trend_ok ∧ is_lunch = false then
    .buy (round6 (cash * p.RISK_PCT / price))
  else if qty > 0 then
    if purchase_date = some today then .hold
    else if price ≥ sell_price then .sellTarget
    else if price ≤ stop_price then .sellStop
    else .hold
  else .hold

/-- C1: with an open position and the same-day guard not applying, whenever
the target-sell threshold (`price ≥ base_price * SELL_TRIGGER`) and the
stop-sell threshold (`price ≤ max (base_price - atr * STOP_MULTIPLIER) 0`)
hold simultaneously, the decision is target-sell, never stop-sell: the
target condition is tested first. -/
theorem target_sell_wins (p : BotParams)
    (qty avg_entry baseline_price cash price atr sma : ℚ)
    (is_lunch : Bool) (pd : Option ℤ) (today : ℤ)
    (hq : 0 < qty) (hguard : pd ≠ some today)
    (htarget : price ≥ avg_entry * p.SELL_TRIGGER)
    (hstop : price ≤ max (avg_entry - atr * p.STOP_MULTIPLIER) 0) :
    tickDecision p qty avg_entry baseline_price cash price atr sma is_lunch pd today =
      Decision.sellTarget := by
  unfold tickDecision
  simp only [if_pos hq]
  rw [if_neg, if_neg hguard, if_pos htarget]
  rintro ⟨h0, -⟩
  exact absurd h0 hq.ne'

/-- Witness for `target_sell_wins` at a concrete input where both sell
thresholds hold at once. -/
theorem target_sell_wins_witness :
    tickDecision ⟨1, 1, 1, 1⟩ 1 10 0 0 10 (-10) 0 false none 0 = Decision.sellTarget :=
  target_sell_wins ⟨1, 1, 1, 1⟩ 1 10 0 0 10 (-10) 0 false none 0
    (by norm_num) (by simp)
    (by show (10 : ℚ) ≥ 10 * 1; norm_num)
    (by show (10 : ℚ) ≤ max (10 - (-10) * 1) 0; rw [show ((10 : ℚ) - (-10) * 1) = 20 by norm_num]
        exact le_max_of_le_left (by norm_num))

/-- C2: with no open position (`qty = 0`), the decision is a buy (of a given
quantity `q`) exactly when the price is at or below `baseline × BUY_TRIGGER`,
the trend filter passes (`price > SMA`), it is not the lunch blackout, and
`q = round((cash × RISK_PCT) / price, 6)`. -/
theorem buy_decision_iff (p : BotParams)
    (avg_entry baseline_price cash price atr sma : ℚ)
    (is_lunch : Bool) (pd : Option ℤ) (today : ℤ) (q : ℚ) :
    tickDecision p 0 avg_entry baseline_price cash price atr sma is_lunch pd today =
        Decision.buy q ↔
      (price ≤ baseline_price * p.BUY_TRIGGER ∧ sma < price ∧ is_lunch = false ∧
        q = round6 (cash * p.RISK_PCT / price)) := by
  by_cases h1 : price ≤ baseline_price * p.BUY_TRIGGER <;>
    by_cases h2 : sma < price <;>
    by_cases h3 : is_lunch = false <;>
    simp [tickDecision, h1, h2, h3, lt_irrefl, eq_comm]

/-- C3: with an open position bought today (`purchase_date = some today`),
the decision is hold: both sell transitions are suppressed regardless of
price. -/
theorem same_day_guard (p : BotParams)
    (qty avg_entry baseline_price cash price atr sma : ℚ)
    (is_lunch : Bool) (today : ℤ) (hq : 0 < qty) :
    tickDecision p qty avg_entry baseline_price cash price atr sma is_lunch
        (some today) today = Decision.hold := by
  unfold tickDecision
  rw [if_neg, if_pos hq, if_pos rfl]
  rintro ⟨h0, -⟩
  exact absurd h0 hq.ne'

/-- Witness for `same_day_guard`: a position bought today is held even at a
price far above the target threshold. -/
theorem same_day_guard_witness :
    tickDecision ⟨1, 1, 1, 1⟩ 1 10 10 100 1000 0 0 false (some 5) 5 = Decision.hold :=
  same_day_guard ⟨1, 1, 1, 1⟩ 1 10 10 100 1000 0 0 false 5 (by norm_num)

/-- C4: the baseline reset fires exactly when no baseline exists, or the
elapsed time exceeds `RESET_HOURS`, or the drift exceeds `BASELINE_DRIFT`
while `atr / price` exceeds `VOLATILITY_FILTER`; drift alone (with
`atr / price` at or below the filter) does not fire. -/
theorem reset_req_iff (RH BD VF : ℚ) (bl : Option Baseline) (price atr now : ℚ)
    (hprice : 0 < price) (hVF : 0 ≤ VF) :
    reset_req RH BD VF bl price atr now = true ↔
      (bl = none ∨ ∃ b, bl = some b ∧
        (now - b.ts > RH * 3600 ∨
          (|price - b.price| / b.price > BD ∧ atr / price > VF))) := by
  cases bl with
  | none => simp [reset_req]
  | some b =>
    have hatr : atr / price > VF → 0 < atr := by
      intro h
      have h0 : 0 < atr / price := lt_of_le_of_lt hVF h
      by_contra hle
      push_neg at hle
      have : atr / price ≤ 0 := div_nonpos_of_nonpos_of_nonneg hle hprice.le
      exact absurd h0 (not_lt.mpr this)
    have hre : reset_req RH BD VF (some b) price atr now =
        (if now - b.ts > RH * 3600 then true
         else if |price - b.price| / b.price > BD then
           decide (atr > 0) && decide (atr / price > VF)
         else false) := rfl
    rw [hre]
    constructor
    · intro h
      refine Or.inr ⟨b, rfl, ?_⟩
      by_cases h1 : now - b.ts > RH * 3600
      · exact Or.inl h1
      · rw [if_neg h1] at h
        by_cases h2 : |price - b.price| / b.price > BD
        · rw [if_pos h2] at h
          simp only [Bool.and_eq_true, decide_eq_true_eq] at h
          exact Or.inr ⟨h2, h.2⟩
        · rw [if_neg h2] at h
          exact absurd h (by simp)
    · rintro (h | ⟨b', hb', hcond⟩)
      · exact absurd h (by simp)
      · obtain rfl := Option.some.inj hb'
        by_cases h1 : now - b.ts > RH * 3600
        · rw [if_pos h1]
        · rw [if_neg h1]
          rcases hcond with h | ⟨hd, hv⟩
          · exact absurd h h1
          · rw [if_pos hd]
            simp only [Bool.and_eq_true, decide_eq_true_eq]
            exact ⟨hatr hv, hv⟩

/-- Witness for `reset_req_iff`: in particular, drift above the threshold
with `atr / price` at or below the volatility filter does not reset. -/
theorem reset_req_iff_witness :
    reset_req 6 (5/100) (2/100) (some ⟨100, 0⟩) 110 2 3600 = false := by
  have h := reset_req_iff 6 (5/100) (2/100) (some ⟨100, 0⟩) 110 2 3600
    (by norm_num) (by norm_num)
  rw [← Bool.not_eq_true, h]
  rintro (hnone | ⟨b, hb, hcond⟩)
  · exact absurd hnone (by simp)
  · obtain rfl := Option.some.inj hb
    rcases hcond with h1 | ⟨-, h3⟩
    · norm_num at h1
    · norm_num at h3

/-- C5: `compute_sma` returns "not ready" (`none`) on fewer than `SMA_PERIOD`
samples; on a sequence of at least `SMA_PERIOD` samples windowed (as the
bounded deque does) to the last `SMA_PERIOD`, it returns the arithmetic mean
of exactly the last `SMA_PERIOD` values. -/
theorem compute_sma_spec (xs : List ℚ) :
    (xs.length < SMA_PERIOD → compute_sma SMA_PERIOD xs = none) ∧
    (SMA_PERIOD ≤ xs.length →
      (xs.rtake SMA_PERIOD).length = SMA_PERIOD ∧
      compute_sma SMA_PERIOD (xs.rtake SMA_PERIOD) =
        some ((xs.rtake SMA_PERIOD).sum / (SMA_PERIOD : ℚ))) := by
  constructor
  · intro h; simp [compute_sma, h]
  · intro h
    have hlen : (xs.rtake SMA_PERIOD).length = SMA_PERIOD := by
      simp only [List.rtake, List.length_drop]
      omega
    refine ⟨hlen, ?_⟩
    unfold compute_sma
    rw [hlen, if_neg (lt_irrefl SMA_PERIOD)]

/-- Witness for `compute_sma_spec`: 3 samples yield "not ready"; the prices
1..24 windowed to the last 20 (the values 5..24) yield mean 14.5. -/
theorem compute_sma_spec_witness :
    compute_sma SMA_PERIOD [1, 2, 3] = none ∧
    compute_sma SMA_PERIOD
        (([1, 2, 3, 4, 5, 6, 7, 8, 9, 10, 11, 12, 13, 14, 15, 16, 17, 18, 19, 20,
           21, 22, 23, 24] : List ℚ).rtake SMA_PERIOD) = some (29/2) := by
  constructor
  · exact (compute_sma_spec _).1 (by norm_num [SMA_PERIOD])
  · have h := ((compute_sma_spec
      ([1, 2, 3, 4, 5, 6, 7, 8, 9, 10, 11, 12, 13, 14, 15, 16, 17, 18, 19, 20,
        21, 22, 23, 24] : List ℚ)).2 (by norm_num [SMA_PERIOD])).2
    rw [h]
    norm_num [List.rtake, SMA_PERIOD]

/-- A trade-log row (`trade_log.csv`), with the ISO timestamp abstracted to
its parsed calendar date (`none`: unparseable timestamp, skipped by the
readers) and the empty trade id abstracted to `none`. -/
structure TradeRow where
  date : Option ℤ
  action : String
  trade_id : Option String
  symbol : String
  quantity : ℚ
  entry_price : Option ℚ
  price : ℚ
  profit : Option ℚ
deriving DecidableEq, Repr

/-- An open position record of the ledger (`positions.json` values). -/
structure Position where
  symbol : String
  quantity : ℚ
  entry_price : ℚ
  open_time : ℚ
deriving DecidableEq, Repr

/-- Function `execute_buy` (main.py lines 488–499): append a fresh position keyed by
the generated trade id and log a buy row.  The ledger is an association list
keyed by trade id in insertion order (Python dicts preserve insertion
order); the second component is the list of trade-log rows appended. -/
def execute_buy (trade_id symbol : String) (quantity price now : ℚ) (today : ℤ)
    (open_positions : List (String × Position)) :
    List (String × Position) × List TradeRow :=
  (open_positions ++ [(trade_id, ⟨symbol, quantity, price, now⟩)],
   [⟨some today, "buy", some trade_id, symbol, quantity, some price, price, none⟩])

/-- Function `execute_sell` (main.py lines 502–513): scan the ledger in insertion
order for the first position with the given symbol; on a match compute
`profit = (price - entry_price) * quantity`, delete the record and log a
sell row; with no match return the sentinel `(None, None)` and leave
everything unchanged.  Result: (sentinel or `(trade_id, profit)`, updated
ledger, appended trade-log rows). -/
def execute_sell (symbol : String) (quantity price : ℚ) (today : ℤ) :
    List (String × Position) →
      Option (String × ℚ) × List (String × Position) × List TradeRow
  | [] => (none, [], [])
  | (tid, pos) :: rest =>
    if pos.symbol = symbol then
      (some (tid, (price - pos.entry_price) * quantity), rest,
       [⟨some today, "sell", some tid, symbol, quantity, none, price,
         some ((price - pos.entry_price) * quantity)⟩])
    else
      let r := execute_sell symbol quantity price today rest
      (r.1, (tid, pos) :: r.2.1, r.2.2)

/-- C7: starting from a ledger with no open position for `X`, a buy of
quantity `q` at `p_in` followed by a sell of `q` at `p_out` yields profit
`(p_out - p_in) * q` and leaves the ledger exactly as before — in
particular with no open position for `X`. -/
theorem ledger_round_trip (tid X : String) (q p_in p_out t_open : ℚ) (today : ℤ)
    (ps : List (String × Position)) (hX : ∀ e ∈ ps, e.2.symbol ≠ X) :
    (execute_sell X q p_out today
        (execute_buy tid X q p_in t_open today ps).1).1 =
      some (tid, (p_out - p_in) * q) ∧
    (execute_sell X q p_out today
        (execute_buy tid X q p_in t_open today ps).1).2.1 = ps ∧
    ∀ e ∈ (execute_sell X q p_out today
        (execute_buy tid X q p_in t_open today ps).1).2.1, e.2.symbol ≠ X := by
  have key : ∀ ps' : List (String × Position), (∀ e ∈ ps', e.2.symbol ≠ X) →
      (execute_sell X q p_out today
          (ps' ++ [(tid, ⟨X, q, p_in, t_open⟩)])).1 =
        some (tid, (p_out - p_in) * q) ∧
      (execute_sell X q p_out today
          (ps' ++ [(tid, ⟨X, q, p_in, t_open⟩)])).2.1 = ps' := by
    intro ps' h
    induction ps' with
    | nil => simp [execute_sell]
    | cons e rest ih =>
      obtain ⟨t0, p0⟩ := e
      have he : p0.symbol ≠ X := h ⟨t0, p0⟩ (by simp)
      have hr := ih fun e he' => h e (List.mem_cons_of_mem _ he')
      simp only [List.cons_append, execute_sell, if_neg he]
      exact ⟨hr.1, by simp [hr.2]⟩
  have h := key ps hX
  exact ⟨h.1, h.2, fun e he => hX e (h.2 ▸ he)⟩

/-- Witness for `ledger_round_trip`: open "X" (3 units at 10), close at 12,
profit 6, ledger left empty. -/
theorem ledger_round_trip_witness :
    (execute_sell "X" 3 12 1 (execute_buy "t1" "X" 3 10 0 1 []).1).1 =
      some ("t1", 6) ∧
    (execute_sell "X" 3 12 1 (execute_buy "t1" "X" 3 10 0 1 []).1).2.1 = [] := by
  have h := ledger_round_trip "t1" "X" 3 10 12 0 1 [] (by simp)
  refine ⟨?_, h.2.1⟩
  rw [h.1]
  norm_num

/-- C8: a sell for a symbol with no open position in the ledger returns the
sentinel "no match" (`none`), leaves the ledger unchanged and appends no
trade-log row (the code path never raises: it is a scan that falls through
to a logged warning). -/
theorem sell_no_match (X : String) (q p : ℚ) (today : ℤ)
    (ps : List (String × Position)) (hX : ∀ e ∈ ps, e.2.symbol ≠ X) :
    execute_sell X q p today ps = (none, ps, []) := by
  induction ps with
  | nil => rfl
  | cons e rest ih =>
    obtain ⟨t0, p0⟩ := e
    have he : p0.symbol ≠ X := hX ⟨t0, p0⟩ (by simp)
    have hr := ih fun e he' => hX e (List.mem_cons_of_mem _ he')
    simp [execute_sell, if_neg he, hr]

/-- Witness for `sell_no_match`: a ledger holding only a "Y" position is
untouched by a sell request for "X". -/
theorem sell_no_match_witness :
    execute_sell "X" 2 7 1 [("a", ⟨"Y", 1, 5, 0⟩)] =
      (none, [("a", ⟨"Y", 1, 5, 0⟩)], []) :=
  sell_no_match "X" 2 7 1 [("a", ⟨"Y", 1, 5, 0⟩)] (by simp)

/-- Association-list lookup (first match wins), modelling a Python dict
read. -/
def alookup {β : Type} : List (String × β) → String → Option β
  | [], _ => none
  | (k, v) :: rest, s => if k = s then some v else alookup rest s

/-- Association-list insert-or-update, modelling a Python dict assignment
(existing key updated in place, new key appended). -/
def upsert {β : Type} : List (String × β) → String → β → List (String × β)
  | [], k, v => [(k, v)]
  | (k0, v0) :: rest, k, v =>
    if k0 = k then (k0, v) :: rest else (k0, v0) :: upsert rest k v

theorem alookup_upsert_self {β : Type} (m : List (String × β)) (k : String) (v : β) :
    alookup (upsert m k v) k = some v := by
  induction m with
  | nil => simp [upsert, alookup]
  | cons e rest ih =>
    obtain ⟨k0, v0⟩ := e
    by_cases h : k0 = k
    · simp [upsert, alookup, h]
    · simp [upsert, alookup, h, ih]

theorem alookup_upsert_ne {β : Type} (m : List (String × β)) (k' k : String) (v : β)
    (h : k' ≠ k) : alookup (upsert m k' v) k = alookup m k := by
  induction m with
  | nil => simp [upsert, alookup, h]
  | cons e rest ih =>
    obtain ⟨k0, v0⟩ := e
    by_cases h0 : k0 = k'
    · subst h0
      simp [upsert, alookup, h]
    · by_cases h1 : k0 = k <;> simp [upsert, alookup, h0, h1, ih, Ne.symm h]

/-- The parsed content of `purchase_dates.json`: stored date plus the
symbol-to-date mapping. -/
structure PurchaseDatesFile where
  date : ℤ
  purchase_dates : List (String × ℤ)
deriving Repr

/-- One row of the trade-log scan of `load_purchase_dates` (main.py lines
384–398): a buy row whose parseable timestamp falls on today marks its
symbol as purchased today. -/
def pdStep (today : ℤ) (m : List (String × ℤ)) (row : TradeRow) :
    List (String × ℤ) :=
  if row.action = "buy" ∧ row.date = some today then upsert m row.symbol today
  else m

/-- Function `load_purchase_dates` (main.py lines 365–403): take the persisted state
when its stored date is today (a stale or missing file yields the empty
map), then augment from the trade log: every buy row timestamped today
marks its symbol as purchased today. -/
def load_purchase_dates (today : ℤ) (st : Option PurchaseDatesFile)
    (log : List TradeRow) : List (String × ℤ) :=
  let pd0 : List (String × ℤ) :=
    match st with
    | some s => if s.date = today then s.purchase_dates else []
    | none => []
  log.foldl (pdStep today) pd0

theorem pdStep_foldl_preserves (today : ℤ) (s : String) (log : List TradeRow) :
    ∀ m : List (String × ℤ), alookup m s = some today →
      alookup (log.foldl (pdStep today) m) s = some today := by
  induction log with
  | nil => intro m hm; simpa using hm
  | cons r rest ih =>
    intro m hm
    simp only [List.foldl_cons]
    refine ih _ ?_
    unfold pdStep
    by_cases hc : r.action = "buy" ∧ r.date = some today
    · rw [if_pos hc]
      by_cases hs : r.symbol = s
      · rw [hs, alookup_upsert_self]
      · rw [alookup_upsert_ne _ _ _ _ hs, hm]
    · rw [if_neg hc]; exact hm

/-- C10: `load_purchase_dates` marks every symbol having a buy row
timestamped today in the trade log as purchased today, whatever the
persisted purchase-dates state (missing, stale, or lacking that symbol). -/
theorem load_purchase_dates_marks_today (today : ℤ)
    (st : Option PurchaseDatesFile) (log : List TradeRow) (s : String)
    (h : ∃ r ∈ log, r.action = "buy" ∧ r.date = some today ∧ r.symbol = s) :
    alookup (load_purchase_dates today st log) s = some today := by
  unfold load_purchase_dates
  generalize (match st with
    | some s => if s.date = today then s.purchase_dates else []
    | none => []) = m
  induction log generalizing m with
  | nil => obtain ⟨r, hr, -⟩ := h; exact absurd hr (List.not_mem_nil r)
  | cons r0 rest ih =>
    obtain ⟨r, hr, ha, hd, hs⟩ := h
    rcases List.mem_cons.mp hr with rfl | hr'
    · simp only [List.foldl_cons]
      refine pdStep_foldl_preserves today s rest _ ?_
      unfold pdStep
      rw [if_pos ⟨ha, hd⟩, hs, alookup_upsert_self]
    · simp only [List.foldl_cons]
      exact ih ⟨r, hr', ha, hd, hs⟩ _

/-- Witness for `load_purchase_dates_marks_today`: no state file, one buy
row for "AAPL" dated today. -/
theorem load_purchase_dates_marks_today_witness :
    alookup (load_purchase_dates 10 none
      [⟨some 10, "buy", some "t1", "AAPL", 1, some 5, 5, none⟩]) "AAPL" = some 10 :=
  load_purchase_dates_marks_today 10 none
    [⟨some 10, "buy", some "t1", "AAPL", 1, some 5, 5, none⟩] "AAPL"
    ⟨⟨some 10, "buy", some "t1", "AAPL", 1, some 5, 5, none⟩,
      List.mem_singleton_self _, rfl, rfl, rfl⟩

theorem rtake_length_le {α : Type} (l : List α) (n : ℕ) : (l.rtake n).length ≤ n := by
  simp only [List.rtake, List.length_drop]
  omega

theorem rtake_eq_self {α : Type} (l : List α) (n : ℕ) (h : l.length ≤ n) :
    l.rtake n = l := by
  simp [List.rtake, Nat.sub_eq_zero_of_le h]

theorem rtake_idem {α : Type} (l : List α) (n : ℕ) :
    (l.rtake n).rtake n = l.rtake n :=
  rtake_eq_self _ _ (rtake_length_le l n)

theorem rtake_append_rtake {α : Type} (l m : List α) (n : ℕ) :
    (l.rtake n ++ m).rtake n = (l ++ m).rtake n := by
  rw [List.rtake_eq_reverse_take_reverse l, List.rtake_eq_reverse_take_reverse,
    List.rtake_eq_reverse_take_reverse, List.reverse_append, List.reverse_append,
    List.reverse_reverse, List.take_append_eq_append_take,
    List.take_append_eq_append_take, List.take_take, List.length_reverse,
    min_eq_left (Nat.sub_le _ _)]

/-- One parsed row of `price_history.csv`: calendar date of the timestamp in
the broker timezone (`none`: unparseable, skipped), symbol, price. -/
structure HistRow where
  date : Option ℤ
  symbol : String
  price : ℚ
deriving DecidableEq, Repr

/-- Effect of `windows[sym].append(price)` on a defaultdict of bounded deques holding
`n` elements at most: the window keyed by `s` (created on first access)
gains `x` and keeps only its most recent `n` entries. -/
def appendToWindow (n : ℕ) : List (String × List ℚ) → String → ℚ →
    List (String × List ℚ)
  | [], s, x => [(s, List.rtake [x] n)]
  | (t, w) :: rest, s, x =>
    if t = s then (t, (w ++ [x]).rtake n) :: rest
    else (t, w) :: appendToWindow n rest s x

/-- One row of the history scan of `load_price_windows` (main.py lines
310–318): a row whose timestamp falls on today feeds its symbol's window. -/
def histStep (today : ℤ) (n : ℕ) (ws : List (String × List ℚ)) (r : HistRow) :
    List (String × List ℚ) :=
  if r.date = some today then appendToWindow n ws r.symbol r.price else ws

/-- The windows reconstructed from the price-history log (main.py lines
303–318). -/
def historyWindows (today : ℤ) (n : ℕ) (rows : List HistRow) :
    List (String × List ℚ) :=
  rows.foldl (histStep today n) []

/-- The parsed content of `sma_state.json`: stored date plus raw window
contents per symbol. -/
structure SmaStateFile where
  date : ℤ
  windows : List (String × List ℚ)
deriving Repr

/-- Function `load_price_windows` (main.py lines 301–349): reconstruct today's
windows from the price-history log; if that yields any window return it,
otherwise fall back to the persisted SMA state, but only when its stored
date equals today (a stale snapshot is discarded); otherwise return empty
windows. -/
def load_price_windows (today : ℤ) (n : ℕ) (rows : List HistRow)
    (st : Option SmaStateFile) : List (String × List ℚ) :=
  let hw := historyWindows today n rows
  if hw ≠ [] then hw
  else
    match st with
    | some s =>
      if s.date = today then
        s.windows.foldl
          (fun ws sw => sw.2.foldl (fun ws2 p => appendToWindow n ws2 sw.1 p) ws) []
      else []
    | none => []

/-- Window read with the defaultdict default: a symbol never touched has the
empty window. -/
def wlookup (ws : List (String × List ℚ)) (s : String) : List ℚ :=
  (alookup ws s).getD []

/-- Today's prices for symbol `s` in file (chronological) order. -/
def todayPrices (today : ℤ) (s : String) (rows : List HistRow) : List ℚ :=
  (rows.filter fun r => decide (r.date = some today) && decide (r.symbol = s)).map
    HistRow.price

theorem wlookup_cons_self (t : String) (w : List ℚ) (ws : List (String × List ℚ)) :
    wlookup ((t, w) :: ws) t = w := by
  simp [wlookup, alookup]

theorem wlookup_cons_ne (t : String) (w : List ℚ) (ws : List (String × List ℚ))
    (s : String) (h : t ≠ s) : wlookup ((t, w) :: ws) s = wlookup ws s := by
  simp [wlookup, alookup, h]

theorem wlookup_appendToWindow_self (n : ℕ) (ws : List (String × List ℚ))
    (s : String) (x : ℚ) :
    wlookup (appendToWindow n ws s x) s = (wlookup ws s ++ [x]).rtake n := by
  induction ws with
  | nil => simp [appendToWindow, wlookup, alookup]
  | cons e rest ih =>
    obtain ⟨t, w⟩ := e
    by_cases h : t = s
    · subst h
      simp [appendToWindow, wlookup, alookup]
    · have ha : appendToWindow n ((t, w) :: rest) s x =
          (t, w) :: appendToWindow n rest s x := by
        simp [appendToWindow, h]
      rw [ha, wlookup_cons_ne t w _ s h, wlookup_cons_ne t w rest s h, ih]

theorem wlookup_appendToWindow_ne (n : ℕ) (ws : List (String × List ℚ))
    (t s : String) (x : ℚ) (h : t ≠ s) :
    wlookup (appendToWindow n ws t x) s = wlookup ws s := by
  induction ws with
  | nil => simp [appendToWindow, wlookup, alookup, h]
  | cons e rest ih =>
    obtain ⟨t0, w⟩ := e
    by_cases h0 : t0 = t
    · subst h0
      have ha : appendToWindow n ((t0, w) :: rest) t0 x =
          (t0, (w ++ [x]).rtake n) :: rest := by
        simp [appendToWindow]
      rw [ha, wlookup_cons_ne t0 _ rest s h, wlookup_cons_ne t0 w rest s h]
    · have ha : appendToWindow n ((t0, w) :: rest) t x =
          (t0, w) :: appendToWindow n rest t x := by
        simp [appendToWindow, h0]
      by_cases h1 : t0 = s
      · subst h1
        rw [ha, wlookup_cons_self, wlookup_cons_self]
      · rw [ha, wlookup_cons_ne t0 w _ s h1, wlookup_cons_ne t0 w rest s h1, ih]

theorem wlookup_foldl_histStep (today : ℤ) (n : ℕ) (s : String) :
    ∀ (rows : List HistRow) (ws : List (String × List ℚ)),
      (wlookup ws s).rtake n = wlookup ws s →
      wlookup (rows.foldl (histStep today n) ws) s =
        (wlookup ws s ++ todayPrices today s rows).rtake n := by
  intro rows
  induction rows with
  | nil =>
    intro ws hws
    simpa [todayPrices] using hws.symm
  | cons r rest ih =>
    intro ws hws
    simp only [List.foldl_cons]
    by_cases hd : r.date = some today
    · by_cases hs : r.symbol = s
      · have h1 := wlookup_appendToWindow_self n ws s r.price
        rw [histStep, if_pos hd, hs]
        rw [ih _ (by rw [h1, rtake_idem]), h1, rtake_append_rtake,
          List.append_assoc]
        have : todayPrices today s (r :: rest) = r.price :: todayPrices today s rest := by
          simp [todayPrices, List.filter_cons, hd, hs]
        rw [this]
        rfl
      · rw [histStep, if_pos hd,
          ih _ (by rw [wlookup_appendToWindow_ne n ws _ s _ hs]; exact hws),
          wlookup_appendToWindow_ne n ws _ s _ hs]
        have : todayPrices today s (r :: rest) = todayPrices today s rest := by
          simp [todayPrices, List.filter_cons, hs]
        rw [this]
    · rw [histStep, if_neg hd, ih _ hws]
      have : todayPrices today s (r :: rest) = todayPrices today s rest := by
        simp [todayPrices, List.filter_cons, hd]
      rw [this]

theorem appendToWindow_ne_nil (n : ℕ) (ws : List (String × List ℚ)) (s : String)
    (x : ℚ) : appendToWindow n ws s x ≠ [] := by
  cases ws with
  | nil => simp [appendToWindow]
  | cons e rest =>
    obtain ⟨t, w⟩ := e
    by_cases h : t = s <;> simp [appendToWindow, h]

theorem foldl_histStep_ne_nil (today : ℤ) (n : ℕ) :
    ∀ (rows : List HistRow) (ws : List (String × List ℚ)), ws ≠ [] →
      rows.foldl (histStep today n) ws ≠ [] := by
  intro rows
  induction rows with
  | nil => intro ws h; simpa using h
  | cons r rest ih =>
    intro ws h
    simp only [List.foldl_cons]
    refine ih _ ?_
    unfold histStep
    by_cases hd : r.date = some today
    · rw [if_pos hd]; exact appendToWindow_ne_nil n ws r.symbol r.price
    · rw [if_neg hd]; exact h

theorem historyWindows_ne_nil (today : ℤ) (n : ℕ) (rows : List HistRow)
    (h : ∃ r ∈ rows, r.date = some today) :
    historyWindows today n rows ≠ [] := by
  unfold historyWindows
  obtain ⟨r, hr, hd⟩ := h
  obtain ⟨p, q, rfl⟩ := List.append_of_mem hr
  rw [List.foldl_append, List.foldl_cons]
  refine foldl_histStep_ne_nil today n q _ ?_
  rw [histStep, if_pos hd]
  exact appendToWindow_ne_nil n _ r.symbol r.price

/-- C6: given a price-history log containing rows dated both yesterday and
today, `load_price_windows` returns, per symbol, exactly today's prices,
windowed to the most recent `n` in chronological (file) order, ignoring any
snapshot; and when the history yields no window at all, a snapshot whose
stored date differs from today is discarded and the loader returns empty
windows. -/
theorem load_price_windows_spec (today : ℤ) (n : ℕ) (rows : List HistRow)
    (st : SmaStateFile) :
    ((∃ r ∈ rows, r.date = some (today - 1)) → (∃ r ∈ rows, r.date = some today) →
      ∀ s, wlookup (load_price_windows today n rows (some st)) s =
        (todayPrices today s rows).rtake n) ∧
    (historyWindows today n rows = [] → st.date ≠ today →
      load_price_windows today n rows (some st) = []) := by
  constructor
  · intro _ ht s
    have hne := historyWindows_ne_nil today n rows ht
    unfold load_price_windows
    rw [if_pos hne]
    have h0 : (wlookup ([] : List (String × List ℚ)) s).rtake n =
        wlookup ([] : List (String × List ℚ)) s := by
      simp [wlookup, alookup, List.rtake]
    have := wlookup_foldl_histStep today n s rows [] h0
    rw [historyWindows, this]
    simp [wlookup, alookup]
  · intro h1 h2
    unfold load_price_windows
    rw [if_neg (by simpa using h1)]
    simp [h2]

/-- Witness for `load_price_windows_spec`: with rows from yesterday (day 9)
and today (day 10), the loader keeps only today's prices for "A", windowed
to the most recent 2, and a stale snapshot is discarded when the history
has no today rows. -/
theorem load_price_windows_spec_witness :
    wlookup (load_price_windows 10 2
      [⟨some 9, "A", 1⟩, ⟨some 10, "A", 2⟩, ⟨some 10, "A", 3⟩, ⟨some 10, "A", 4⟩]
      (some ⟨9, [("A", [99])]⟩)) "A" = [3, 4] ∧
    load_price_windows 10 2 [⟨some 9, "A", 1⟩] (some ⟨9, [("A", [99])]⟩) = [] := by
  constructor
  · rw [(load_price_windows_spec 10 2
      [⟨some 9, "A", 1⟩, ⟨some 10, "A", 2⟩, ⟨some 10, "A", 3⟩, ⟨some 10, "A", 4⟩]
      ⟨9, [("A", [99])]⟩).1
      ⟨⟨some 9, "A", 1⟩, by simp, by norm_num⟩
      ⟨⟨some 10, "A", 2⟩, by simp, rfl⟩ "A"]
    simp [todayPrices, List.rtake, List.filter]
  · exact (load_price_windows_spec 10 2 [⟨some 9, "A", 1⟩] ⟨9, [("A", [99])]⟩).2
      (by simp [historyWindows, histStep]) (by norm_num)

/-- A warning `validate_trades` (main.py lines 45–74) can log. -/
inductive Anomaly where
  | sellWithoutBuy (row : TradeRow)
  | duplicateClose (tid : Option String)
  | sameDay (tid : Option String) (d : ℤ)
deriving DecidableEq, Repr

/-- The scan state of `validate_trades`: the `buy_dates` dict (trade id of a
prior buy → its date, later buys overwriting earlier ones) and `sell_counts`
represented as the list of trade ids of the sells seen so far. -/
structure VState where
  buy_dates : List (String × ℤ)
  sell_tids : List (Option String)
deriving Repr

/-- Condition `not trade_id or trade_id not in buy_dates`. -/
def noMatchingBuy (bd : List (String × ℤ)) : Option String → Bool
  | none => true
  | some t => decide (alookup bd t = none)

/-- State update of one `validate_trades` loop iteration: rows with an
unparseable timestamp are skipped; a buy with a trade id records its date;
a sell is counted under its trade id. -/
def vstep (st : VState) (r : TradeRow) : VState :=
  match r.date with
  | none => st
  | some d =>
    if r.action = "buy" then
      match r.trade_id with
      | some t => ⟨upsert st.buy_dates t d, st.sell_tids⟩
      | none => st
    else if r.action = "sell" then
      ⟨st.buy_dates, r.trade_id :: st.sell_tids⟩
    else st

/-- Warnings emitted by one `validate_trades` loop iteration, in emission
order: sell without matching buy, duplicate close (the sell count for this
trade id, incremented by this row, exceeds one), same-day buy and sell. -/
def vwarn (st : VState) (r : TradeRow) : List Anomaly :=
  match r.date with
  | none => []
  | some d =>
    if r.action = "buy" then []
    else if r.action = "sell" then
      (if noMatchingBuy st.buy_dates r.trade_id then [Anomaly.sellWithoutBuy r]
       else []) ++
      (if 1 < (r.trade_id :: st.sell_tids).count r.trade_id then
        [Anomaly.duplicateClose r.trade_id]
       else []) ++
      (match r.trade_id.bind (alookup st.buy_dates) with
       | some bd => if bd = d then [Anomaly.sameDay r.trade_id d] else []
       | none => [])
    else []

/-- Function `validate_trades`: scan the whole log, emitting warnings without raising
and without modifying the log. -/
def validate_trades (st : VState) : List TradeRow → List Anomaly
  | [] => []
  | r :: rest => vwarn st r ++ validate_trades (vstep st r) rest

theorem vstep_date_none (st : VState) (r : TradeRow) (h : r.date = none) :
    vstep st r = st := by
  unfold vstep; rw [h]

theorem vstep_buy_some (st : VState) (r : TradeRow) (d : ℤ) (t : String)
    (hd : r.date = some d) (ha : r.action = "buy") (ht : r.trade_id = some t) :
    vstep st r = ⟨upsert st.buy_dates t d, st.sell_tids⟩ := by
  unfold vstep; rw [hd]; simp [ha, ht]

theorem vstep_buy_none (st : VState) (r : TradeRow) (d : ℤ)
    (hd : r.date = some d) (ha : r.action = "buy") (ht : r.trade_id = none) :
    vstep st r = st := by
  unfold vstep; rw [hd]; simp [ha, ht]

theorem vstep_sell (st : VState) (r : TradeRow) (d : ℤ)
    (hd : r.date = some d) (ha : r.action = "sell") :
    vstep st r = ⟨st.buy_dates, r.trade_id :: st.sell_tids⟩ := by
  unfold vstep; rw [hd]; simp [ha]

theorem vstep_other (st : VState) (r : TradeRow) (d : ℤ)
    (hd : r.date = some d) (hb : ¬r.action = "buy") (hs : ¬r.action = "sell") :
    vstep st r = st := by
  unfold vstep; rw [hd]; simp [hb, hs]

theorem vwarn_not_sell (st : VState) (r : TradeRow)
    (h : r.date = none ∨ ¬r.action = "sell") : vwarn st r = [] := by
  rcases h with h | h
  · unfold vwarn; rw [h]
  · unfold vwarn
    cases hd : r.date with
    | none => rfl
    | some d =>
      by_cases hb : r.action = "buy"
      · simp [hb]
      · simp [hb, h]

theorem vwarn_sell (st : VState) (r : TradeRow) (d : ℤ)
    (hd : r.date = some d) (ha : r.action = "sell") :
    vwarn st r =
      (if noMatchingBuy st.buy_dates r.trade_id then [Anomaly.sellWithoutBuy r]
       else []) ++
      (if 1 < (r.trade_id :: st.sell_tids).count r.trade_id then
        [Anomaly.duplicateClose r.trade_id]
       else []) ++
      (match r.trade_id.bind (alookup st.buy_dates) with
       | some bd => if bd = d then [Anomaly.sameDay r.trade_id d] else []
       | none => []) := by
  unfold vwarn; rw [hd]; simp [ha]

theorem vwarn_ne_nil_A (st : VState) (r : TradeRow) (d : ℤ)
    (hd : r.date = some d) (ha : r.action = "sell")
    (hA : noMatchingBuy st.buy_dates r.trade_id = true) : vwarn st r ≠ [] := by
  rw [vwarn_sell st r d hd ha, hA]
  simp

theorem vwarn_ne_nil_B (st : VState) (r : TradeRow) (d : ℤ)
    (hd : r.date = some d) (ha : r.action = "sell")
    (hB : 1 < (r.trade_id :: st.sell_tids).count r.trade_id) : vwarn st r ≠ [] := by
  rw [vwarn_sell st r d hd ha, if_pos hB]
  simp

theorem vwarn_ne_nil_C (st : VState) (r : TradeRow) (d : ℤ)
    (hd : r.date = some d) (ha : r.action = "sell")
    (hC : r.trade_id.bind (alookup st.buy_dates) = some d) : vwarn st r ≠ [] := by
  rw [vwarn_sell st r d hd ha, hC]
  simp

theorem vwarn_sell_nil (st : VState) (r : TradeRow) (d : ℤ)
    (hd : r.date = some d) (ha : r.action = "sell")
    (hA : noMatchingBuy st.buy_dates r.trade_id = false)
    (hB : ¬1 < (r.trade_id :: st.sell_tids).count r.trade_id)
    (hC : ∀ bd, r.trade_id.bind (alookup st.buy_dates) = some bd → bd ≠ d) :
    vwarn st r = [] := by
  rw [vwarn_sell st r d hd ha, hA, if_neg hB]
  simp only [Bool.false_eq_true, if_false, List.nil_append, List.append_nil]
  cases hb : r.trade_id.bind (alookup st.buy_dates) with
  | none => rfl
  | some bd => simp [hC bd hb]

theorem validate_trades_append (st : VState) (l1 l2 : List TradeRow) :
    validate_trades st (l1 ++ l2) =
      validate_trades st l1 ++ validate_trades (l1.foldl vstep st) l2 := by
  induction l1 generalizing st with
  | nil => simp [validate_trades]
  | cons r rest ih => simp [validate_trades, ih, List.append_assoc]

theorem validate_trades_eq_nil_iff (st : VState) (rows : List TradeRow) :
    validate_trades st rows = [] ↔
      ∀ p r s, rows = p ++ r :: s → vwarn (p.foldl vstep st) r = [] := by
  constructor
  · intro h p r s hsplit
    subst hsplit
    rw [validate_trades_append] at h
    have h2 := (List.append_eq_nil.mp h).2
    rw [validate_trades] at h2
    exact (List.append_eq_nil.mp h2).1
  · intro h
    induction rows generalizing st with
    | nil => rfl
    | cons r rest ih =>
      have h0 := h [] r rest rfl
      rw [List.foldl_nil] at h0
      rw [validate_trades, h0, List.nil_append]
      exact ih (vstep st r) fun p r' s' h' => by
        have := h (r :: p) r' s' (by rw [h']; rfl)
        rwa [List.foldl_cons] at this

theorem foldl_vstep_concat (st : VState) (p : List TradeRow) (r : TradeRow) :
    (p ++ [r]).foldl vstep st = vstep (p.foldl vstep st) r := by
  rw [List.foldl_append, List.foldl_cons, List.foldl_nil]

/-- Soundness of the `buy_dates` dict: each binding comes from a prior valid
buy row with that trade id and date. -/
theorem alookup_buy_dates_sound (p : List TradeRow) (t : String) (d : ℤ)
    (h : alookup (p.foldl vstep ⟨[], []⟩).buy_dates t = some d) :
    ∃ b ∈ p, b.date = some d ∧ b.action = "buy" ∧ b.trade_id = some t := by
  induction p using List.reverseRecOn with
  | nil => simp [alookup] at h
  | append_singleton p r ih =>
    rw [foldl_vstep_concat] at h
    have step : ∀ b ∈ p, b.date = some d ∧ b.action = "buy" ∧ b.trade_id = some t →
        ∃ b ∈ p ++ [r], b.date = some d ∧ b.action = "buy" ∧ b.trade_id = some t :=
      fun b hb hh => ⟨b, List.mem_append_left _ hb, hh⟩
    cases hdr : r.date with
    | none =>
      rw [vstep_date_none _ _ hdr] at h
      obtain ⟨b, hb, hh⟩ := ih h
      exact step b hb hh
    | some d0 =>
      by_cases hab : r.action = "buy"
      · cases htr : r.trade_id with
        | none =>
          rw [vstep_buy_none _ _ _ hdr hab htr] at h
          obtain ⟨b, hb, hh⟩ := ih h
          exact step b hb hh
        | some t' =>
          rw [vstep_buy_some _ _ _ _ hdr hab htr] at h
          by_cases htt : t' = t
          · subst htt
            rw [alookup_upsert_self] at h
            obtain rfl := Option.some.inj h
            exact ⟨r, List.mem_append_right _ (List.mem_singleton_self r),
              hdr, hab, htr⟩
          · rw [alookup_upsert_ne _ _ _ _ htt] at h
            obtain ⟨b, hb, hh⟩ := ih h
            exact step b hb hh
      · by_cases has : r.action = "sell"
        · rw [vstep_sell _ _ _ hdr has] at h
          obtain ⟨b, hb, hh⟩ := ih h
          exact step b hb hh
        · rw [vstep_other _ _ _ hdr hab has] at h
          obtain ⟨b, hb, hh⟩ := ih h
          exact step b hb hh

/-- Completeness of the `buy_dates` dict: a valid buy row leaves some
binding for its trade id. -/
theorem alookup_buy_dates_present (p : List TradeRow) (t : String)
    (h : ∃ b ∈ p, b.date ≠ none ∧ b.action = "buy" ∧ b.trade_id = some t) :
    ∃ d', alookup (p.foldl vstep ⟨[], []⟩).buy_dates t = some d' := by
  induction p using List.reverseRecOn with
  | nil => obtain ⟨b, hb, -⟩ := h; exact absurd hb (List.not_mem_nil b)
  | append_singleton p r ih =>
    rw [foldl_vstep_concat]
    obtain ⟨b, hb, hbd, hba, hbt⟩ := h
    rcases List.mem_append.mp hb with hbp | hbr
    · obtain ⟨d', hd'⟩ := ih ⟨b, hbp, hbd, hba, hbt⟩
      cases hdr : r.date with
      | none => rw [vstep_date_none _ _ hdr]; exact ⟨d', hd'⟩
      | some d0 =>
        by_cases hab : r.action = "buy"
        · cases htr : r.trade_id with
          | none => rw [vstep_buy_none _ _ _ hdr hab htr]; exact ⟨d', hd'⟩
          | some t' =>
            rw [vstep_buy_some _ _ _ _ hdr hab htr]
            by_cases htt : t' = t
            · subst htt
              exact ⟨d0, alookup_upsert_self _ _ _⟩
            · rw [alookup_upsert_ne _ _ _ _ htt]
              exact ⟨d', hd'⟩
        · by_cases has : r.action = "sell"
          · rw [vstep_sell _ _ _ hdr has]; exact ⟨d', hd'⟩
          · rw [vstep_other _ _ _ hdr hab has]; exact ⟨d', hd'⟩
    · obtain rfl := List.mem_singleton.mp hbr
      obtain ⟨d0, hd0⟩ := Option.ne_none_iff_exists'.mp hbd
      rw [vstep_buy_some _ _ _ _ hd0 hba hbt]
      exact ⟨d0, alookup_upsert_self _ _ _⟩

/-- The trade ids of the valid buy rows of a log, in order. -/
def buyIds (rows : List TradeRow) : List String :=
  rows.filterMap fun r =>
    if r.date ≠ none ∧ r.action = "buy" then r.trade_id else none

theorem buyIds_append (l1 l2 : List TradeRow) :
    buyIds (l1 ++ l2) = buyIds l1 ++ buyIds l2 :=
  List.filterMap_append ..

theorem mem_buyIds (rows : List TradeRow) (t : String) (b : TradeRow)
    (hb : b ∈ rows) (hd : b.date ≠ none) (ha : b.action = "buy")
    (ht : b.trade_id = some t) : t ∈ buyIds rows := by
  unfold buyIds
  refine List.mem_filterMap.mpr ⟨b, hb, ?_⟩
  rw [if_pos ⟨hd, ha⟩, ht]

/-- Exactness of the `buy_dates` dict when buy trade ids are unique: the
binding for `t` is the date of the unique valid buy with trade id `t`. -/
theorem alookup_buy_dates_nodup (p : List TradeRow) (t : String) (d : ℤ)
    (hnd : (buyIds p).Nodup) (b : TradeRow) (hb : b ∈ p) (hbd : b.date = some d)
    (hba : b.action = "buy") (hbt : b.trade_id = some t) :
    alookup (p.foldl vstep ⟨[], []⟩).buy_dates t = some d := by
  induction p using List.reverseRecOn with
  | nil => exact absurd hb (List.not_mem_nil b)
  | append_singleton p r ih =>
    rw [foldl_vstep_concat]
    have hnd' : (buyIds p).Nodup :=
      ((List.nodup_append.mp (by rwa [buyIds_append] at hnd)).1)
    have hdisj : (buyIds p).Disjoint (buyIds [r]) :=
      (List.nodup_append.mp (by rwa [buyIds_append] at hnd)).2.2
    rcases List.mem_append.mp hb with hbp | hbr
    · have hmem : t ∈ buyIds p := mem_buyIds p t b hbp (by simp [hbd]) hba hbt
      have ht' := ih hnd' hbp
      cases hdr : r.date with
      | none => rw [vstep_date_none _ _ hdr]; exact ht'
      | some d0 =>
        by_cases hab : r.action = "buy"
        · cases htr : r.trade_id with
          | none => rw [vstep_buy_none _ _ _ hdr hab htr]; exact ht'
          | some t' =>
            rw [vstep_buy_some _ _ _ _ hdr hab htr]
            have htne : t' ≠ t := by
              intro hcon
              subst hcon
              exact hdisj hmem
                (mem_buyIds [r] t' r (List.mem_singleton_self r)
                  (by simp [hdr]) hab htr)
            rw [alookup_upsert_ne _ _ _ _ htne]
            exact ht'
        · by_cases has : r.action = "sell"
          · rw [vstep_sell _ _ _ hdr has]; exact ht'
          · rw [vstep_other _ _ _ hdr hab has]; exact ht'
    · obtain rfl := List.mem_singleton.mp hbr
      rw [vstep_buy_some _ _ _ _ hbd hba hbt]
      exact alookup_upsert_self _ _ _

/-- The sell count per trade id is the number of prior valid sell rows with
that trade id. -/
theorem sell_tids_count (p : List TradeRow) (t : String) :
    (p.foldl vstep ⟨[], []⟩).sell_tids.count (some t) =
      (p.filter fun r => decide (r.date ≠ none) && decide (r.action = "sell") &&
        decide (r.trade_id = some t)).length := by
  induction p using List.reverseRecOn with
  | nil => simp
  | append_singleton p r ih =>
    rw [foldl_vstep_concat, List.filter_append, List.length_append]
    cases hdr : r.date with
    | none =>
      rw [vstep_date_none _ _ hdr, ih]
      simp [List.filter, hdr]
    | some d0 =>
      by_cases hab : r.action = "buy"
      · have hns : ¬r.action = "sell" := by rw [hab]; decide
        cases htr : r.trade_id with
        | none =>
          rw [vstep_buy_none _ _ _ hdr hab htr, ih]
          simp [List.filter, hns]
        | some t' =>
          rw [vstep_buy_some _ _ _ _ hdr hab htr]
          rw [show (VState.mk (upsert (p.foldl vstep ⟨[], []⟩).buy_dates t' d0)
            (p.foldl vstep ⟨[], []⟩).sell_tids).sell_tids =
            (p.foldl vstep ⟨[], []⟩).sell_tids from rfl, ih]
          simp [List.filter, hns]
      · by_cases has : r.action = "sell"
        · rw [vstep_sell _ _ _ hdr has]
          rw [show (VState.mk (p.foldl vstep ⟨[], []⟩).buy_dates
            (r.trade_id :: (p.foldl vstep ⟨[], []⟩).sell_tids)).sell_tids =
            r.trade_id :: (p.foldl vstep ⟨[], []⟩).sell_tids from rfl]
          by_cases htt : r.trade_id = some t
          · rw [htt, List.count_cons_self, ih]
            simp [List.filter, hdr, has, htt]
          · rw [List.count_cons_of_ne (Ne.symm htt), ih]
            simp [List.filter, htt]
        · rw [vstep_other _ _ _ hdr hab has, ih]
          simp [List.filter, has]

theorem exists_first_split {α : Type} (q : α → Bool) (l : List α)
    (h : 1 ≤ (l.filter q).length) :
    ∃ p r s, l = p ++ r :: s ∧ q r = true := by
  induction l with
  | nil => simp at h
  | cons x rest ih =>
    by_cases hx : q x = true
    · exact ⟨[], x, rest, rfl, hx⟩
    · rw [List.filter_cons_of_neg (by simpa using hx)] at h
      obtain ⟨p, r, s, rfl, hr⟩ := ih h
      exact ⟨x :: p, r, s, rfl, hr⟩

theorem exists_second_split {α : Type} (q : α → Bool) (l : List α)
    (h : 2 ≤ (l.filter q).length) :
    ∃ p r s, l = p ++ r :: s ∧ q r = true ∧ 1 ≤ (p.filter q).length := by
  induction l with
  | nil => simp at h
  | cons x rest ih =>
    by_cases hx : q x = true
    · have h1 : 1 ≤ (rest.filter q).length := by
        rw [List.filter_cons_of_pos hx] at h
        simpa using h
      obtain ⟨p1, r, s, rfl, hr⟩ := exists_first_split q rest h1
      refine ⟨x :: p1, r, s, rfl, hr, ?_⟩
      rw [List.filter_cons_of_pos hx]
      simp
    · rw [List.filter_cons_of_neg (by simpa using hx)] at h
      obtain ⟨p, r, s, rfl, hr, hp⟩ := ih h
      refine ⟨x :: p, r, s, rfl, hr, ?_⟩
      rw [List.filter_cons_of_neg (by simpa using hx)]
      exact hp

/-- Anomaly class 1: a (valid-timestamp) sell row whose trade id has no
prior valid buy row — including a sell with no trade id at all. -/
def hasSellWithoutBuy (rows : List TradeRow) : Prop :=
  ∃ p r s, rows = p ++ r :: s ∧ r.date ≠ none ∧ r.action = "sell" ∧
    ∀ t, r.trade_id = some t →
      ¬∃ b ∈ p, b.date ≠ none ∧ b.action = "buy" ∧ b.trade_id = some t

/-- Anomaly class 2: more than one (valid-timestamp) sell row referencing
the same trade id. -/
def hasDuplicateClose (rows : List TradeRow) : Prop :=
  ∃ t : String, 2 ≤ (rows.filter fun r => decide (r.date ≠ none) &&
    decide (r.action = "sell") && decide (r.trade_id = some t)).length

/-- Anomaly class 3: a buy and a sell for the same trade id on the same
calendar date. -/
def hasSameDayRoundTrip (rows : List TradeRow) : Prop :=
  ∃ t d, (∃ b ∈ rows, b.date = some d ∧ b.action = "buy" ∧ b.trade_id = some t) ∧
    ∃ r ∈ rows, r.date = some d ∧ r.action = "sell" ∧ r.trade_id = some t

/-- C9: on a trade log whose (valid) buy rows carry pairwise distinct trade
ids — the ledger invariant, trade ids being freshly generated per buy —
`validate_trades` emits no warning exactly when the log is free of all
three anomaly classes: sell without a prior matching buy, duplicate close,
and same-day buy and sell of one trade id.  The scan only reads the log:
warnings are reported, nothing raises, no row is modified. -/
theorem validate_trades_clean_iff (rows : List TradeRow)
    (hnd : (buyIds rows).Nodup) :
    validate_trades ⟨[], []⟩ rows = [] ↔
      ¬hasSellWithoutBuy rows ∧ ¬hasDuplicateClose rows ∧
        ¬hasSameDayRoundTrip rows := by
  rw [validate_trades_eq_nil_iff]
  constructor
  · intro h
    refine ⟨?_, ?_, ?_⟩
    · rintro ⟨p, r, s, rfl, hdne, ha, hnob⟩
      obtain ⟨d, hd⟩ := Option.ne_none_iff_exists'.mp hdne
      have hA : noMatchingBuy (p.foldl vstep ⟨[], []⟩).buy_dates r.trade_id = true := by
        cases ht : r.trade_id with
        | none => rfl
        | some t =>
          simp only [noMatchingBuy, decide_eq_true_eq]
          cases hl : alookup (p.foldl vstep ⟨[], []⟩).buy_dates t with
          | none => rfl
          | some d' =>
            obtain ⟨b, hb, hbd, hba, hbt⟩ := alookup_buy_dates_sound p t d' hl
            exact absurd ⟨b, hb, by simp [hbd], hba, hbt⟩ (hnob t ht)
      exact vwarn_ne_nil_A _ r d hd ha hA (h p r s rfl)
    · rintro ⟨t, h2⟩
      obtain ⟨p, r, s, rfl, hq, hpre⟩ := exists_second_split _ rows h2
      simp only [Bool.and_eq_true, decide_eq_true_eq] at hq
      obtain ⟨⟨hdne, ha⟩, ht⟩ := hq
      obtain ⟨d, hd⟩ := Option.ne_none_iff_exists'.mp hdne
      have hB : 1 < ((r.trade_id :: (p.foldl vstep ⟨[], []⟩).sell_tids).count
          r.trade_id) := by
        rw [ht, List.count_cons_self, sell_tids_count p t]
        omega
      exact vwarn_ne_nil_B _ r d hd ha hB (h p r s rfl)
    · rintro ⟨t, d, ⟨b, hb, hbd, hba, hbt⟩, ⟨r, hr, hrd, hra, hrt⟩⟩
      obtain ⟨p, s, rfl⟩ := List.append_of_mem hr
      cases hl : alookup (p.foldl vstep ⟨[], []⟩).buy_dates t with
      | none =>
        have hA : noMatchingBuy (p.foldl vstep ⟨[], []⟩).buy_dates r.trade_id = true := by
          rw [hrt]
          simp [noMatchingBuy, hl]
        exact vwarn_ne_nil_A _ r d hrd hra hA (h p r s rfl)
      | some d' =>
        have hnd' : (buyIds p).Nodup :=
          (List.nodup_append.mp (by rwa [buyIds_append] at hnd)).1
        have hdisj : (buyIds p).Disjoint (buyIds (r :: s)) :=
          (List.nodup_append.mp (by rwa [buyIds_append] at hnd)).2.2
        have hbp : b ∈ p := by
          rcases List.mem_append.mp hb with hbp | hbrs
          · exact hbp
          · exfalso
            rcases List.mem_cons.mp hbrs with rfl | hbs
            · rw [hba] at hra
              exact absurd hra (by decide)
            · obtain ⟨b', hb', hbd', hba', hbt'⟩ :=
                alookup_buy_dates_sound p t d' hl
              refine hdisj (mem_buyIds p t b' hb' (by simp [hbd']) hba' hbt') ?_
              exact mem_buyIds (r :: s) t b (List.mem_cons_of_mem r hbs)
                (by simp [hbd]) hba hbt
        have hl2 : alookup (p.foldl vstep ⟨[], []⟩).buy_dates t = some d :=
          alookup_buy_dates_nodup p t d hnd' b hbp hbd hba hbt
        have hC : r.trade_id.bind (alookup (p.foldl vstep ⟨[], []⟩).buy_dates) =
            some d := by
          rw [hrt, Option.some_bind, hl2]
        exact vwarn_ne_nil_C _ r d hrd hra hC (h p r s rfl)
  · rintro ⟨h1, h2, h3⟩ p r s rfl
    by_cases hdne : r.date = none
    · exact vwarn_not_sell _ r (Or.inl hdne)
    by_cases hra : r.action = "sell"
    case neg => exact vwarn_not_sell _ r (Or.inr hra)
    obtain ⟨d, hd⟩ := Option.ne_none_iff_exists'.mp hdne
    cases ht : r.trade_id with
    | none =>
      exfalso
      refine h1 ⟨p, r, s, rfl, hdne, hra, fun t h' => ?_⟩
      rw [ht] at h'
      cases h'
    | some t =>
      have hbuy : ∃ b ∈ p, b.date ≠ none ∧ b.action = "buy" ∧
          b.trade_id = some t := by
        by_contra hno
        refine h1 ⟨p, r, s, rfl, hdne, hra, fun t' ht' => ?_⟩
        rw [ht] at ht'
        obtain rfl := Option.some.inj ht'
        exact hno
      obtain ⟨d', hl⟩ := alookup_buy_dates_present p t hbuy
      refine vwarn_sell_nil _ r d hd hra ?_ ?_ ?_
      · rw [ht]
        simp [noMatchingBuy, hl]
      · rw [ht, List.count_cons_self, sell_tids_count p t]
        have hzero : (p.filter fun r => decide (r.date ≠ none) &&
            decide (r.action = "sell") && decide (r.trade_id = some t)).length = 0 := by
          by_contra hlen
          refine h2 ⟨t, ?_⟩
          rw [List.filter_append, List.length_append,
            List.filter_cons_of_pos (by simp [hdne, hra, ht])]
          simp only [List.length_cons]
          omega
        omega
      · intro bd hbind hbdd
        rw [ht, Option.some_bind, hbdd] at hbind
        obtain ⟨b2, hb2, hbd2, hba2, hbt2⟩ := alookup_buy_dates_sound p t d hbind
        exact h3 ⟨t, d, ⟨b2, List.mem_append_left _ hb2, hbd2, hba2, hbt2⟩,
          ⟨r, List.mem_append_right _ (List.mem_cons_self r s), hd, hra, ht⟩⟩

/-- Witness for `validate_trades_clean_iff`: a clean two-row log (buy on day
1, sell on day 2, same trade id) has distinct buy ids and yields no warning,
hence is free of all three anomaly classes. -/
theorem validate_trades_clean_iff_witness :
    ¬hasSellWithoutBuy
        [⟨some 1, "buy", some "t1", "A", 1, some 5, 5, none⟩,
         ⟨some 2, "sell", some "t1", "A", 1, none, 6, some 1⟩] ∧
    ¬hasDuplicateClose
        [⟨some 1, "buy", some "t1", "A", 1, some 5, 5, none⟩,
         ⟨some 2, "sell", some "t1", "A", 1, none, 6, some 1⟩] ∧
    ¬hasSameDayRoundTrip
        [⟨some 1, "buy", some "t1", "A", 1, some 5, 5, none⟩,
         ⟨some 2, "sell", some "t1", "A", 1, none, 6, some 1⟩] :=
  (validate_trades_clean_iff
    [⟨some 1, "buy", some "t1", "A", 1, some 5, 5, none⟩,
     ⟨some 2, "sell", some "t1", "A", 1, none, 6, some 1⟩]
    (by simp [buyIds])).mp (by rfl)

end MarketSentinel
